import Mathlib

/-!
Shallow embedding of the de Bruijn assembler core (`debruijn.py`) and
verification of the specification claims about it.

Conventions of the embedding:
* a networkx `DiGraph` becomes `DGraph α`: a node list and an edge list with
  rational weights, both kept in insertion order, as networkx does;
* Python floats are modelled as exact rationals `ℚ`; the source only branches
  on `statistics.stdev(l) != 0`, and `stdev l ≠ 0 ↔ sampleVariance l ≠ 0`
  (the standard deviation is the square root of the nonnegative variance),
  so those branch conditions are embedded as tests on the sample variance;
* fallible Python operations (`list.pop` out of range, `statistics.mean` of an
  empty list) are modelled with `Option`; a raised exception that escapes a
  function whose graph argument was already mutated in place is modelled by
  `PyResult.raised`, which carries the exception name and the graph state at
  the moment of the raise;
* `random.randint(0, n)` is modelled by an extra argument `rnd`, standing for
  the value drawn (any `rnd ≤ n` is a possible draw).
-/

namespace Debruijn

/-- A directed graph with a rational `weight` attribute on every edge,
modelling a networkx `DiGraph` over nodes of type `α`.  Node and edge lists
are kept in insertion order, as networkx iteration does. -/
structure DGraph (α : Type) where
  nodes : List α
  edges : List (α × α × ℚ)
deriving DecidableEq

/-- Result of a Python call on a graph that is mutated in place: either a
normal return value, or a raised exception (by name) together with the state
the graph object had when the exception escaped. -/
inductive PyResult (β : Type) where
  | ok : β → PyResult β
  | raised : String → β → PyResult β
deriving DecidableEq

variable {α : Type} [DecidableEq α]

/-- networkx `add_node`: appends the node if it is not already present. -/
def add_node (g : DGraph α) (x : α) : DGraph α :=
  if x ∈ g.nodes then g else ⟨g.nodes ++ [x], g.edges⟩

/-- Edge-list part of networkx `add_edge`: an existing `u → v` edge has its
weight overwritten in place, otherwise the new edge is appended. -/
def updateEdgeL : List (α × α × ℚ) → α → α → ℚ → List (α × α × ℚ)
  | [], u, v, w => [(u, v, w)]
  | e :: rest, u, v, w =>
    if e.1 = u ∧ e.2.1 = v then (u, v, w) :: rest else e :: updateEdgeL rest u v w

/-- networkx `add_edge(u, v, weight=w)`: creates missing endpoint nodes, then
inserts or overwrites the edge. -/
def add_edge (g : DGraph α) (u v : α) (w : ℚ) : DGraph α :=
  let g' := add_node (add_node g u) v
  ⟨g'.nodes, updateEdgeL g'.edges u v w⟩

/-- Weight lookup in an edge list. -/
def edgeWeightL : List (α × α × ℚ) → α → α → Option ℚ
  | [], _, _ => none
  | e :: rest, u, v => if e.1 = u ∧ e.2.1 = v then some e.2.2 else edgeWeightL rest u v

/-- Weight of the edge `u → v`, if present. -/
def edgeWeight (g : DGraph α) (u v : α) : Option ℚ :=
  edgeWeightL g.edges u v

/-- Whether the edge `u → v` is present. -/
def hasEdge (g : DGraph α) (u v : α) : Bool :=
  g.edges.any (fun e => decide (e.1 = u ∧ e.2.1 = v))

/-- Successors of `u`, in edge insertion order (networkx adjacency order). -/
def successors (g : DGraph α) (u : α) : List α :=
  (g.edges.filter (fun e => decide (e.1 = u))).map (fun e => e.2.1)

/-- Predecessors of `v`, in edge insertion order. -/
def predecessors (g : DGraph α) (v : α) : List α :=
  (g.edges.filter (fun e => decide (e.2.1 = v))).map (fun e => e.1)

/-- networkx `remove_nodes_from`: delete the listed nodes and every edge
incident to one of them; nodes not present are silently ignored. -/
def removeNodes (g : DGraph α) (s : List α) : DGraph α :=
  ⟨g.nodes.filter (fun x => decide (x ∉ s)),
   g.edges.filter (fun e => decide (e.1 ∉ s ∧ e.2.1 ∉ s))⟩

/-- Python `statistics.mean`: arithmetic mean; raises on an empty list, modelled as
`none`. -/
def meanQ (l : List ℚ) : Option ℚ :=
  if l = [] then none else some (l.sum / l.length)

/-- Sample variance (denominator `n - 1`), the square of `statistics.stdev`;
the code only compares `stdev l` with `0`, and `stdev l ≠ 0 ↔ sampleVariance
l ≠ 0`, so branch tests on the standard deviation are embedded as tests on
this quantity. -/
def sampleVariance (l : List ℚ) : ℚ :=
  let m := l.sum / l.length
  (l.map (fun x => (x - m) * (x - m))).sum / ((l.length : ℚ) - 1)

def argmaxAux : List ℚ → ℚ → Nat → Nat → Nat
  | [], _, _, best => best
  | x :: xs, cur, i, best =>
    if cur < x then argmaxAux xs x (i + 1) i else argmaxAux xs cur (i + 1) best

/-- numpy `argmax`: index of the first occurrence of the maximum value
(`0` on the empty list, where numpy raises instead; every use site is guarded
by a non-emptiness check). -/
def argmax : List ℚ → Nat
  | [] => 0
  | x :: xs => argmaxAux xs x 1 0

/-- The cutter `cut_kmer`: emit the `k + len(read) % k + 1` slices `read[i : i + k]`;
Python slicing clamps at the end of the string, so late slices are truncated
or empty rather than dropped. -/
def cut_kmer (read : List Char) (kmer_size : Nat) : List (List Char) :=
  let k_over := kmer_size + read.length % kmer_size
  (List.range (k_over + 1)).map (fun i => (read.drop i).take kmer_size)

/-- One dictionary update of `build_kmer_dict`: increment the count of `w`
in place, or append a fresh entry with count 1 (Python dicts keep insertion
order). -/
def bumpKmer : List (List Char × Nat) → List Char → List (List Char × Nat)
  | [], w => [(w, 1)]
  | e :: rest, w => if e.1 = w then (e.1, e.2 + 1) :: rest else e :: bumpKmer rest w

/-- The counter `build_kmer_dict`, with the file reading factored out: the external FASTQ
reader supplies the list of read sequences. -/
def build_kmer_dict (reads : List (List Char)) (kmer_size : Nat) :
    List (List Char × Nat) :=
  reads.foldl (fun d r => (cut_kmer r kmer_size).foldl bumpKmer d) []

/-- Dictionary lookup with default 0 (`kmer_dict[kmer]` guarded by `in`). -/
def lookupCount : List (List Char × Nat) → List Char → Nat
  | [], _ => 0
  | e :: rest, w => if e.1 = w then e.2 else lookupCount rest w

/-- The builder `build_graph`: for every dictionary entry, add the edge
`seq[:-1] → seq[1:]` with the occurrence count as weight. -/
def build_graph (kmer_dict : List (List Char × Nat)) : DGraph (List Char) :=
  kmer_dict.foldl (fun g e => add_edge g e.1.dropLast (e.1.drop 1) (e.2 : ℚ)) ⟨[], []⟩

/-- The function `remove_paths`: Python slices `path`, `path[:-1]`, `path[1:]`, `path[1:-1]`
become `p`, `p.dropLast`, `p.drop 1`, `(p.drop 1).dropLast`. -/
def remove_paths (g : DGraph α) (path_list : List (List α))
    (delete_entry_node delete_sink_node : Bool) : DGraph α :=
  path_list.foldl
    (fun g' path =>
      if delete_entry_node && delete_sink_node then removeNodes g' path
      else if delete_entry_node then removeNodes g' path.dropLast
      else if delete_sink_node then removeNodes g' (path.drop 1)
      else removeNodes g' ((path.drop 1).dropLast))
    g

/-- The selector `select_best_path`.  Here `rnd` is the value drawn by `randint(0, len(path_list))`
(only consulted on the random tie-break branch); `path_list.pop(index)` with
an out-of-range index raises `IndexError`, modelled as `none`.  Note that the
source guards both standard deviations on `len(weight_avg_list) > 1`. -/
def select_best_path (g : DGraph α) (path_list : List (List α))
    (path_length : List ℚ) (weight_avg_list : List ℚ)
    (delete_entry_node delete_sink_node : Bool) (rnd : Nat) : Option (DGraph α) :=
  let stdev_weight : ℚ :=
    if 1 < weight_avg_list.length then sampleVariance weight_avg_list else 0
  let stdev_length : ℚ :=
    if 1 < weight_avg_list.length then sampleVariance path_length else 0
  let index : Nat :=
    if stdev_weight ≠ 0 then argmax weight_avg_list
    else if stdev_length ≠ 0 then argmax path_length
    else rnd
  if index < path_list.length then
    some (remove_paths g (path_list.eraseIdx index) delete_entry_node delete_sink_node)
  else none

/-- The edges of `graph.subgraph(path)`: every edge of the graph whose two
endpoints both lie in the node set of `path`. -/
def subgraphEdges (g : DGraph α) (path : List α) : List (α × α × ℚ) :=
  g.edges.filter (fun e => decide (e.1 ∈ path ∧ e.2.1 ∈ path))

/-- The metric `path_average_weight`: mean weight over the edges of the subgraph induced
by the path's node set. -/
def path_average_weight (g : DGraph α) (path : List α) : Option ℚ :=
  meanQ ((subgraphEdges g path).map (fun e => e.2.2))

/-- Depth-first enumeration of simple paths ending at `target`, following
adjacency (edge insertion) order, as networkx `all_simple_paths` does.
`fuel` bounds the recursion depth; the caller passes the node count, which is
an upper bound on the number of nodes of any simple path. -/
def dfsPaths (g : DGraph α) (target : α) : Nat → List α → α → List (List α)
  | 0, _, _ => []
  | fuel + 1, pref, u =>
    if u = target then [pref ++ [u]]
    else
      ((successors g u).filter (fun v => decide (v ∉ pref ++ [u]))).flatMap
        (fun v => dfsPaths g target fuel (pref ++ [u]) v)

/-- networkx `all_simple_paths(g, a, b)`, in DFS order. -/
def all_simple_paths (g : DGraph α) (a b : α) : List (List α) :=
  if a ∈ g.nodes ∧ b ∈ g.nodes then dfsPaths g b g.nodes.length [] a else []

/-- The resolver `solve_bubble`: enumerate the simple paths between the two nodes, score
each (length and average weight, accumulated in enumeration order), and hand
everything to `select_best_path` with both deletion flags at their `False`
defaults.  A `statistics.mean` failure inside `path_average_weight`
propagates, as does an `IndexError` from `select_best_path`. -/
def solve_bubble (g : DGraph α) (ancestor_node descendant_node : α) (rnd : Nat) :
    Option (DGraph α) :=
  let path_list := all_simple_paths g ancestor_node descendant_node
  let len_list : List ℚ := path_list.map (fun p => (p.length : ℚ))
  match path_list.mapM (fun p => path_average_weight g p) with
  | none => none
  | some weight_avg_list =>
      select_best_path g path_list len_list weight_avg_list false false rnd

/-- Loop body of `solve_entry_tips` over the node list.  At the first node
whose predecessors meet the starting-node set in more than one element, the
source calls `select_best_path(graph, path_list, len_list, weight_avg_list)`
with both deletion flags left at their `False` defaults, and then executes
`paths.pop(best_path)` where `best_path` is the *graph* returned by
`select_best_path`: `list.pop` requires an integer, so this raises
`TypeError` unconditionally, after the graph has already been mutated by the
selector.  The subsequent `remove_paths(..., delete_entry_node=True, ...)`
line is unreachable. -/
def solve_entry_tips_aux (g : DGraph α) (starting_nodes : List α) (rnd : Nat) :
    List α → PyResult (DGraph α)
  | [] => PyResult.ok g
  | node :: rest =>
    let tip_preds := (predecessors g node).filter (fun p => decide (p ∈ starting_nodes))
    if 1 < tip_preds.length then
      match (tip_preds.map (fun tp => all_simple_paths g tp node)).mapM List.head? with
      | none => PyResult.raised "IndexError" g
      | some firsts =>
        let len_list : List ℚ := firsts.map (fun p => (p.length : ℚ))
        match firsts.mapM (fun p => path_average_weight g p) with
        | none => PyResult.raised "StatisticsError" g
        | some weight_avg_list =>
          match select_best_path g firsts len_list weight_avg_list false false rnd with
          | none => PyResult.raised "IndexError" g
          | some g' => PyResult.raised "TypeError" g'
    else solve_entry_tips_aux g starting_nodes rnd rest

/-- The resolver `solve_entry_tips`: scan the nodes in insertion order. -/
def solve_entry_tips (g : DGraph α) (starting_nodes : List α) (rnd : Nat) :
    PyResult (DGraph α) :=
  solve_entry_tips_aux g starting_nodes rnd g.nodes

/-- The resolver `solve_out_tips`: the body is `pass`, so the call returns Python `None`
(no graph) and raises nothing. -/
def solve_out_tips (g : DGraph α) (ending_nodes : List α) :
    PyResult (Option (DGraph α)) :=
  PyResult.ok none

/-- Boolean test that consecutive elements of the list are all edges. -/
def chainB (g : DGraph α) : List α → Bool
  | [] => true
  | [_] => true
  | u :: v :: rest => hasEdge g u v && chainB g (v :: rest)

/-- A nonempty duplicate-free node sequence from `a` to `b` whose consecutive
pairs are all edges of `g`: the defining property of a simple path. -/
def isSimplePath (g : DGraph α) (a b : α) (p : List α) : Bool :=
  p.head? == some a && p.getLast? == some b && decide p.Nodup &&
    p.all (fun x => decide (x ∈ g.nodes)) && chainB g p

/-- The selection cascade exactly as the claim words it: nonzero sample
standard deviation of the weights picks the heaviest candidate, else nonzero
sample standard deviation of the lengths picks the longest, else the random
draw (from `[0, candidate_count]` inclusive) decides.  A standard deviation
is nonzero iff the list has more than one entry and nonzero sample
variance. -/
def specWinner (lens ws : List ℚ) (rnd : Nat) : Nat :=
  if 1 < ws.length ∧ sampleVariance ws ≠ 0 then argmax ws
  else if 1 < lens.length ∧ sampleVariance lens ≠ 0 then argmax lens
  else rnd

/-- The node slice that `remove_paths` actually deletes for one losing path,
as a function of the two deletion flags. -/
def sliceFor (delete_entry_node delete_sink_node : Bool) (p : List α) : List α :=
  match delete_entry_node, delete_sink_node with
  | true, true => p
  | true, false => p.dropLast
  | false, true => p.drop 1
  | false, false => (p.drop 1).dropLast

/-- The weights the spec describes for `path_average_weight`: the weight of
every edge of the graph both of whose endpoints lie in the path's node set. -/
def inducedWeights (g : DGraph α) (path : List α) : List ℚ :=
  (g.edges.filter (fun e => decide (e.1 ∈ path.toFinset ∧ e.2.1 ∈ path.toFinset))).map
    (fun e => e.2.2)

/-- The edges actually traversed consecutively along a path, with their
weights. -/
def consecEdges (g : DGraph α) (path : List α) : List (α × α × ℚ) :=
  (path.zip (path.drop 1)).filterMap
    (fun uv => (edgeWeight g uv.1 uv.2).map (fun w => (uv.1, uv.2, w)))

/-- Subgraph relation used to state that mutation only ever removes graph
material. -/
def SubG (g' g : DGraph α) : Prop :=
  (∀ x ∈ g'.nodes, x ∈ g.nodes) ∧ ∀ e ∈ g'.edges, e ∈ g.edges

/-! ## Helper lemmas -/

lemma argmaxAux_lt (xs : List ℚ) : ∀ (cur : ℚ) (i best : Nat), best < i →
    argmaxAux xs cur i best < i + xs.length := by
  induction xs with
  | nil =>
    intro cur i best h
    simpa only [argmaxAux, List.length_nil, Nat.add_zero] using h
  | cons x xs ih =>
    intro cur i best h
    simp only [argmaxAux, List.length_cons]
    split
    · have h2 := ih x (i + 1) i (Nat.lt_succ_self i)
      omega
    · have h2 := ih cur (i + 1) best (Nat.lt_succ_of_lt h)
      omega

lemma argmax_lt {l : List ℚ} (h : l ≠ []) : argmax l < l.length := by
  cases l with
  | nil => exact absurd rfl h
  | cons x xs =>
    have h2 := argmaxAux_lt xs x 1 0 Nat.one_pos
    simp only [argmax, List.length_cons]
    omega

lemma mem_nodes_removeNodes {g : DGraph α} {s : List α} {x : α} :
    x ∈ (removeNodes g s).nodes ↔ x ∈ g.nodes ∧ x ∉ s := by
  simp [removeNodes, List.mem_filter]

lemma mem_edges_removeNodes {g : DGraph α} {s : List α} {e : α × α × ℚ} :
    e ∈ (removeNodes g s).edges ↔ e ∈ g.edges ∧ e.1 ∉ s ∧ e.2.1 ∉ s := by
  simp [removeNodes, List.mem_filter]

lemma remove_paths_body (g : DGraph α) (de ds : Bool) (p : List α) :
    (if de && ds then removeNodes g p
     else if de then removeNodes g p.dropLast
     else if ds then removeNodes g (p.drop 1)
     else removeNodes g ((p.drop 1).dropLast)) = removeNodes g (sliceFor de ds p) := by
  cases de <;> cases ds <;> rfl

lemma remove_paths_eq (g : DGraph α) (ps : List (List α)) (de ds : Bool) :
    remove_paths g ps de ds =
      ps.foldl (fun g' p => removeNodes g' (sliceFor de ds p)) g := by
  induction ps generalizing g with
  | nil => rfl
  | cons p ps ih =>
    show (p :: ps).foldl _ g = _
    rw [List.foldl_cons, List.foldl_cons, remove_paths_body]
    exact ih _

lemma mem_nodes_remove_paths (g : DGraph α) (ps : List (List α)) (de ds : Bool) (x : α) :
    x ∈ (remove_paths g ps de ds).nodes ↔
      x ∈ g.nodes ∧ ∀ p ∈ ps, x ∉ sliceFor de ds p := by
  rw [remove_paths_eq]
  induction ps generalizing g with
  | nil => simp
  | cons p ps ih =>
    simp only [List.foldl_cons, ih, mem_nodes_removeNodes, List.forall_mem_cons]
    tauto

lemma mem_edges_remove_paths (g : DGraph α) (ps : List (List α)) (de ds : Bool)
    (e : α × α × ℚ) :
    e ∈ (remove_paths g ps de ds).edges ↔
      e ∈ g.edges ∧ ∀ p ∈ ps, e.1 ∉ sliceFor de ds p ∧ e.2.1 ∉ sliceFor de ds p := by
  rw [remove_paths_eq]
  induction ps generalizing g with
  | nil => simp
  | cons p ps ih =>
    simp only [List.foldl_cons, ih, mem_edges_removeNodes, List.forall_mem_cons]
    tauto

lemma subG_refl (g : DGraph α) : SubG g g :=
  ⟨fun _ h => h, fun _ h => h⟩

lemma subG_trans {g1 g2 g3 : DGraph α} (h12 : SubG g1 g2) (h23 : SubG g2 g3) :
    SubG g1 g3 :=
  ⟨fun x hx => h23.1 x (h12.1 x hx), fun e he => h23.2 e (h12.2 e he)⟩

lemma removeNodes_subG (g : DGraph α) (s : List α) : SubG (removeNodes g s) g :=
  ⟨fun _ hx => (mem_nodes_removeNodes.1 hx).1, fun _ he => (mem_edges_removeNodes.1 he).1⟩

lemma remove_paths_subG (g : DGraph α) (ps : List (List α)) (de ds : Bool) :
    SubG (remove_paths g ps de ds) g := by
  rw [remove_paths_eq]
  induction ps generalizing g with
  | nil => exact subG_refl g
  | cons p ps ih => exact subG_trans (ih _) (removeNodes_subG g _)

lemma hasEdge_mono {g' g : DGraph α} (h : ∀ e ∈ g'.edges, e ∈ g.edges) {u v : α}
    (he : hasEdge g' u v = true) : hasEdge g u v = true := by
  simp only [hasEdge, List.any_eq_true, decide_eq_true_eq] at he ⊢
  obtain ⟨e, he1, he2⟩ := he
  exact ⟨e, h e he1, he2⟩

lemma chainB_mono {g' g : DGraph α} (h : ∀ e ∈ g'.edges, e ∈ g.edges) :
    ∀ p, chainB g' p = true → chainB g p = true
  | [] => fun _ => rfl
  | [_] => fun _ => rfl
  | u :: v :: rest => fun hp => by
    simp only [chainB, Bool.and_eq_true] at hp ⊢
    exact ⟨hasEdge_mono h hp.1, chainB_mono h (v :: rest) hp.2⟩

lemma isSimplePath_mono {g' g : DGraph α} (hsub : SubG g' g) (a b : α) (p : List α)
    (hp : isSimplePath g' a b p = true) : isSimplePath g a b p = true := by
  simp only [isSimplePath, Bool.and_eq_true, List.all_eq_true, decide_eq_true_eq] at hp ⊢
  exact ⟨⟨⟨⟨hp.1.1.1.1, hp.1.1.1.2⟩, hp.1.1.2⟩,
    fun x hx => hsub.1 x (hp.1.2 x hx)⟩, chainB_mono hsub.2 p hp.2⟩

/-- The index computed by `select_best_path` before the `pop`. -/
def selIdx (lens ws : List ℚ) (rnd : Nat) : Nat :=
  let stdev_weight : ℚ := if 1 < ws.length then sampleVariance ws else 0
  let stdev_length : ℚ := if 1 < ws.length then sampleVariance lens else 0
  if stdev_weight ≠ 0 then argmax ws
  else if stdev_length ≠ 0 then argmax lens
  else rnd

lemma select_best_path_eq (g : DGraph α) (pl : List (List α)) (lens ws : List ℚ)
    (de ds : Bool) (rnd : Nat) :
    select_best_path g pl lens ws de ds rnd =
      if selIdx lens ws rnd < pl.length then
        some (remove_paths g (pl.eraseIdx (selIdx lens ws rnd)) de ds)
      else none := rfl

lemma select_best_path_some {g g' : DGraph α} {pl : List (List α)} {lens ws : List ℚ}
    {de ds : Bool} {rnd : Nat}
    (h : select_best_path g pl lens ws de ds rnd = some g') :
    ∃ i, g' = remove_paths g (pl.eraseIdx i) de ds := by
  rw [select_best_path_eq] at h
  split at h
  · exact ⟨_, (Option.some.inj h).symm⟩
  · exact absurd h (by simp)

lemma meanQ_perm {l l' : List ℚ} (h : l.Perm l') : meanQ l = meanQ l' := by
  rcases eq_or_ne l [] with rfl | hne
  · rw [h.symm.eq_nil]
  · have hne' : l' ≠ [] := by
      intro he
      exact hne (by simpa [he] using h)
    simp [meanQ, hne, hne', h.length_eq, h.sum_eq]

/-! ## C1 -/

/-- C1: with parallel candidate, length, and weight lists (same length, at
least one entry) and a random draw `rnd ≤ candidate_count`, the selector
picks exactly the winner of the claim's cascade (`specWinner`), removes it
from the candidate list, and passes the remaining paths as losers to
`remove_paths` with the given flags; an index one past the end (possible
only on the random branch, whose draw range is inclusive) makes the
removal fail (`none`). -/
theorem select_best_path_cascade (g : DGraph α) (pl : List (List α))
    (lens ws : List ℚ) (de ds : Bool) (rnd : Nat)
    (hlen : lens.length = pl.length) (hws : ws.length = pl.length)
    (hne : 1 ≤ pl.length) (hrnd : rnd ≤ pl.length) :
    (select_best_path g pl lens ws de ds rnd =
      if specWinner lens ws rnd < pl.length then
        some (remove_paths g (pl.eraseIdx (specWinner lens ws rnd)) de ds)
      else none) ∧
    (specWinner lens ws rnd = rnd ∨ specWinner lens ws rnd < pl.length) := by
  have hlw : lens.length = ws.length := by omega
  have hidx : selIdx lens ws rnd = specWinner lens ws rnd := by
    unfold selIdx specWinner
    rw [hlw]
    by_cases h1 : 1 < ws.length <;> by_cases h2 : sampleVariance ws = 0 <;>
      by_cases h3 : sampleVariance lens = 0 <;> simp [h1, h2, h3]
  constructor
  · rw [select_best_path_eq, hidx]
  · unfold specWinner
    split_ifs with h1 h2
    · have hwne : ws ≠ [] := by
        intro he
        rw [he] at h1
        exact absurd h1.1 (by simp)
      have := argmax_lt hwne
      right
      omega
    · have hlne : lens ≠ [] := by
        intro he
        rw [he] at h2
        exact absurd h2.1 (by simp)
      have := argmax_lt hlne
      right
      omega
    · left
      rfl

/-- C1 witness: the cascade theorem applied at a concrete call. -/
theorem select_best_path_cascade_witness :
    (select_best_path (⟨["a", "b"], []⟩ : DGraph String) [["a"], ["b"]] [2, 2] [1, 5]
        false false 0 =
      if specWinner [2, 2] [1, 5] 0 < ([["a"], ["b"]] : List (List String)).length then
        some (remove_paths (⟨["a", "b"], []⟩ : DGraph String)
          ([["a"], ["b"]].eraseIdx (specWinner [2, 2] [1, 5] 0)) false false)
      else none) ∧
    (specWinner [2, 2] [1, 5] 0 = 0 ∨
      specWinner [2, 2] [1, 5] 0 < ([["a"], ["b"]] : List (List String)).length) :=
  select_best_path_cascade (⟨["a", "b"], []⟩ : DGraph String) [["a"], ["b"]] [2, 2] [1, 5]
    false false 0 (by decide) (by decide) (by decide) (by decide)

/-! ## C2 -/

/-- C2 counterexample: with a single candidate both standard deviations are
treated as `0`, so the winner is `randint(0, 1)`; the draw `1` (the inclusive
upper bound, equal to the candidate count) makes `path_list.pop(1)` raise
`IndexError`: the call does not always complete without error. -/
theorem select_best_path_single_error :
    select_best_path (⟨["a", "b"], [("a", "b", 1)]⟩ : DGraph String)
      [["a", "b"]] [2] [3] false false 1 = none := by
  with_unfolding_all decide

/-- C2 (amended): with a single candidate, when the random draw is the
in-range value `0` the selector returns that candidate as winner and the
graph completely unchanged (the loser list is empty); when the draw is `1`
(the inclusive upper bound) the removal fails with an index error. -/
theorem select_best_path_single_candidate (g : DGraph α) (p : List α) (len w : ℚ)
    (de ds : Bool) :
    select_best_path g [p] [len] [w] de ds 0 = some g ∧
      select_best_path g [p] [len] [w] de ds 1 = none := by
  constructor <;> simp [select_best_path, remove_paths]

/-! ## C8 -/

/-- C8 counterexample: on the path `[a, b, c]` with only the delete-entry
flag set, the claim keeps everything but the first node, yet the code
removes `path[:-1]`, i.e. the first node *and* the interior node `b`,
leaving only `c`. -/
theorem remove_paths_entry_flag_counterexample :
    "b" ∈ (⟨["a", "b", "c"], [("a", "b", 1), ("b", "c", 1)]⟩ : DGraph String).nodes ∧
    "b" ∉ (remove_paths (⟨["a", "b", "c"], [("a", "b", 1), ("b", "c", 1)]⟩ : DGraph String)
        [["a", "b", "c"]] true false).nodes ∧
    (remove_paths (⟨["a", "b", "c"], [("a", "b", 1), ("b", "c", 1)]⟩ : DGraph String)
        [["a", "b", "c"]] true false).nodes = ["c"] := by
  with_unfolding_all decide

/-- C8 (amended): per losing path the deleted slice is: the whole path when
both flags are set; everything but the last node when only delete-entry is
set; everything but the first node when only delete-sink is set; only the
strictly-interior nodes when neither is set (`sliceFor`).  A node survives
iff it avoids every deleted slice, and an edge survives iff both endpoints
do (deleting a node removes its incident edges). -/
theorem remove_paths_slice_characterization (g : DGraph α) (ps : List (List α))
    (de ds : Bool) :
    (∀ x, x ∈ (remove_paths g ps de ds).nodes ↔
        x ∈ g.nodes ∧ ∀ p ∈ ps, x ∉ sliceFor de ds p) ∧
    (∀ e, e ∈ (remove_paths g ps de ds).edges ↔
        e ∈ g.edges ∧ ∀ p ∈ ps, e.1 ∉ sliceFor de ds p ∧ e.2.1 ∉ sliceFor de ds p) :=
  ⟨fun x => mem_nodes_remove_paths g ps de ds x,
   fun e => mem_edges_remove_paths g ps de ds e⟩

/-! ## C4 -/

/-- The bubble of the C4 counterexample: `A → C` directly and `A → B → C`,
with weights making the two-edge branch the heavier winner. -/
def gB : DGraph String :=
  ⟨["A", "C", "B"], [("A", "C", 1), ("A", "B", 4), ("B", "C", 4)]⟩

/-- C4 counterexample: on `gB` the bubble between ancestor `A` and
convergence node `C` has two simple paths; resolution picks `[A, B, C]`
(average weight 3 beats 1) and the loser `[A, C]` has no interior nodes, so
nothing is removed: the graph is returned unchanged and the number of
distinct simple paths between the pair stays 2 — not strictly decreased to
exactly one (and a rescan of the unchanged graph finds the same bubble
again, so the restart recursion cannot make progress here). -/
theorem solve_bubble_no_decrease :
    solve_bubble gB "A" "C" 0 = some gB ∧
      (all_simple_paths gB "A" "C").length = 2 := by
  with_unfolding_all decide

/-- C4 (amended): a single bubble resolution that completes without error
only ever removes nodes, so every simple path between the recorded ancestor
and the convergence node in the resolved graph was already a simple path
before; the count of such paths never increases, but need not strictly
decrease to one, and termination of the restart loop is not guaranteed. -/
theorem solve_bubble_paths_subset (g g' : DGraph α) (a d : α) (rnd : Nat)
    (h : solve_bubble g a d rnd = some g') (p : List α)
    (hp : isSimplePath g' a d p = true) : isSimplePath g a d p = true := by
  have hsub : SubG g' g := by
    simp only [solve_bubble] at h
    split at h
    · exact absurd h (by simp)
    · obtain ⟨i, hi⟩ := select_best_path_some h
      exact hi ▸ remove_paths_subG g _ false false
  exact isSimplePath_mono hsub a d p hp

/-- C4 witness: the amended theorem applied to the concrete resolution on
`gB` and the surviving path `[A, C]`. -/
theorem solve_bubble_paths_subset_witness :
    solve_bubble gB "A" "C" 0 = some gB ∧ isSimplePath gB "A" "C" ["A", "C"] = true :=
  ⟨by with_unfolding_all decide,
   solve_bubble_paths_subset gB gB "A" "C" 0 (by with_unfolding_all decide)
     ["A", "C"] (by with_unfolding_all decide)⟩

/-! ## C5 -/

/-- C5: `path_average_weight` is the mean over the weights of every edge
whose two endpoints both lie in the path's node set (the edge-induced
subgraph), and whenever those induced edges are exactly the consecutively
traversed ones, it equals the mean of just the traversed edge weights. -/
theorem path_average_weight_spec (g : DGraph α) (path : List α) :
    path_average_weight g path = meanQ (inducedWeights g path) ∧
      ((subgraphEdges g path).Perm (consecEdges g path) →
        path_average_weight g path =
          meanQ ((consecEdges g path).map (fun e => e.2.2))) := by
  constructor
  · simp [path_average_weight, inducedWeights, subgraphEdges, List.mem_toFinset]
  · intro hperm
    unfold path_average_weight
    exact meanQ_perm (hperm.map (fun e => e.2.2))

/-- The graph of the C5 witness: a plain two-edge chain. -/
def gPA : DGraph String :=
  ⟨["a", "b", "c"], [("a", "b", 2), ("b", "c", 4)]⟩

/-- C5 witness: on a chain whose node set induces exactly the traversed
edges, the theorem gives the mean of the traversed weights. -/
theorem path_average_weight_spec_witness :
    (subgraphEdges gPA ["a", "b", "c"]).Perm (consecEdges gPA ["a", "b", "c"]) ∧
      path_average_weight gPA ["a", "b", "c"] =
        meanQ ((consecEdges gPA ["a", "b", "c"]).map (fun e => e.2.2)) :=
  ⟨by with_unfolding_all decide,
   (path_average_weight_spec gPA ["a", "b", "c"]).2 (by with_unfolding_all decide)⟩

/-! ## K-mer counting lemmas (C6, C10) -/

lemma lookupCount_bumpKmer (d : List (List Char × Nat)) (x w : List Char) :
    lookupCount (bumpKmer d x) w = lookupCount d w + if x = w then 1 else 0 := by
  induction d with
  | nil => by_cases h : x = w <;> simp [bumpKmer, lookupCount, h]
  | cons e rest ih =>
    by_cases hex : e.1 = x
    · by_cases hw : e.1 = w
      · have hxw : x = w := hex.symm.trans hw
        simp [bumpKmer, lookupCount, hex, hw, hxw]
      · have hxw : ¬x = w := fun hh => hw (hex.trans hh)
        simp [bumpKmer, lookupCount, hex, hw, hxw]
    · by_cases hw : e.1 = w
      · have hxw : ¬x = w := fun hh => hex (hw.trans hh.symm)
        have hwx : ¬w = x := fun hh => hxw hh.symm
        simp [bumpKmer, lookupCount, hex, hw, hxw, hwx]
      · simp [bumpKmer, lookupCount, hex, hw, ih]

lemma lookupCount_foldl_bump (l : List (List Char)) (d : List (List Char × Nat))
    (w : List Char) :
    lookupCount (l.foldl bumpKmer d) w = lookupCount d w + l.count w := by
  induction l generalizing d with
  | nil => simp
  | cons x xs ih =>
    rw [List.foldl_cons, ih, lookupCount_bumpKmer, List.count_cons]
    rcases eq_or_ne x w with rfl | h
    · simp
      omega
    · simp [h, Ne.symm h]

lemma lookupCount_build_kmer_dict (reads : List (List Char)) (k : Nat) (w : List Char) :
    lookupCount (build_kmer_dict reads k) w =
      ((reads.map (fun r => cut_kmer r k)).flatten).count w := by
  have hgen : ∀ (rs : List (List Char)) (d : List (List Char × Nat)),
      lookupCount (rs.foldl (fun d r => (cut_kmer r k).foldl bumpKmer d) d) w =
        lookupCount d w + ((rs.map (fun r => cut_kmer r k)).flatten).count w := by
    intro rs
    induction rs with
    | nil => simp
    | cons r rs ih =>
      intro d
      rw [List.foldl_cons, ih, lookupCount_foldl_bump]
      simp [List.count_append]
      omega
  simpa [build_kmer_dict, lookupCount] using hgen reads []

lemma length_le_k_add_mod (L k : Nat) (h : L < 2 * k) : L ≤ k + L % k := by
  rcases Nat.lt_or_ge L k with h1 | h1
  · rw [Nat.mod_eq_of_lt h1]
    omega
  · have h2 : L % k = L - k := by
      have hk : 0 < k := by omega
      rw [Nat.mod_eq_sub_mod h1, Nat.mod_eq_of_lt (by omega)]
    omega

lemma nil_mem_cut_kmer {read : List Char} {k : Nat} (h : read.length < 2 * k) :
    [] ∈ cut_kmer read k := by
  simp only [cut_kmer]
  refine List.mem_map.2 ⟨k + read.length % k, List.mem_range.2 (Nat.lt_succ_self _), ?_⟩
  have hle := length_le_k_add_mod read.length k h
  simp [List.drop_eq_nil_of_le hle]

lemma mem_of_lookupCount_pos : ∀ (d : List (List Char × Nat)) (w : List Char),
    1 ≤ lookupCount d w → (w, lookupCount d w) ∈ d
  | [], w => by simp [lookupCount]
  | e :: rest, w => fun h => by
    by_cases hw : e.1 = w
    · simp only [lookupCount, if_pos hw] at h ⊢
      exact List.mem_cons.2 (Or.inl (by cases e with | mk e1 e2 => simp_all))
    · simp only [lookupCount, if_neg hw] at h ⊢
      exact List.mem_cons.2 (Or.inr (mem_of_lookupCount_pos rest w h))

/-! ## Graph-building lemmas (C7, C10) -/

lemma edges_add_node (g : DGraph α) (x : α) : (add_node g x).edges = g.edges := by
  unfold add_node
  split <;> rfl

lemma edges_add_edge (g : DGraph α) (u v : α) (w : ℚ) :
    (add_edge g u v w).edges = updateEdgeL g.edges u v w := by
  simp [add_edge, edges_add_node]

lemma mem_nodes_add_node {g : DGraph α} {x y : α} :
    y ∈ (add_node g x).nodes ↔ y ∈ g.nodes ∨ y = x := by
  unfold add_node
  split
  · rename_i h
    constructor
    · exact Or.inl
    · rintro (hy | rfl)
      · exact hy
      · exact h
  · simp [List.mem_append]

lemma mem_nodes_add_edge {g : DGraph α} {u v y : α} {w : ℚ} :
    y ∈ (add_edge g u v w).nodes ↔ y ∈ g.nodes ∨ y = u ∨ y = v := by
  show y ∈ (add_node (add_node g u) v).nodes ↔ _
  rw [mem_nodes_add_node, mem_nodes_add_node, or_assoc]

lemma mem_updateEdgeL_self (u v : α) (w : ℚ) : ∀ (l : List (α × α × ℚ)),
    (u, v, w) ∈ updateEdgeL l u v w
  | [] => by simp [updateEdgeL]
  | e :: rest => by
    by_cases he : e.1 = u ∧ e.2.1 = v <;>
      simp [updateEdgeL, he, mem_updateEdgeL_self u v w rest]

lemma mem_updateEdgeL_of_mem {f : α × α × ℚ} (u v : α) (w : ℚ)
    (hne : ¬(f.1 = u ∧ f.2.1 = v)) : ∀ {l : List (α × α × ℚ)}, f ∈ l →
    f ∈ updateEdgeL l u v w
  | [], hf => absurd hf (List.not_mem_nil f)
  | e :: rest, hf => by
    rcases List.mem_cons.1 hf with rfl | hrest
    · simp [updateEdgeL, hne]
    · by_cases he : e.1 = u ∧ e.2.1 = v
      · simp [updateEdgeL, he, hrest]
      · simp [updateEdgeL, he, mem_updateEdgeL_of_mem u v w hne hrest]

lemma hasEdge_iff {g : DGraph α} {u v : α} :
    hasEdge g u v = true ↔ ∃ e ∈ g.edges, e.1 = u ∧ e.2.1 = v := by
  simp [hasEdge, List.any_eq_true]

lemma hasEdge_add_edge_self (g : DGraph α) (u v : α) (w : ℚ) :
    hasEdge (add_edge g u v w) u v = true := by
  rw [hasEdge_iff, edges_add_edge]
  exact ⟨(u, v, w), mem_updateEdgeL_self u v w g.edges, rfl, rfl⟩

lemma hasEdge_add_edge_of (g : DGraph α) {u v : α} (u' v' : α) (w : ℚ)
    (h : hasEdge g u v = true) : hasEdge (add_edge g u' v' w) u v = true := by
  rw [hasEdge_iff] at h ⊢
  obtain ⟨f, hf, hf1, hf2⟩ := h
  rw [edges_add_edge]
  by_cases hm : f.1 = u' ∧ f.2.1 = v'
  · exact ⟨(u', v', w), mem_updateEdgeL_self u' v' w g.edges,
      by rw [← hm.1, hf1], by rw [← hm.2, hf2]⟩
  · exact ⟨f, mem_updateEdgeL_of_mem u' v' w hm hf, hf1, hf2⟩

lemma edgeWeightL_updateEdgeL_self (u v : α) (w : ℚ) : ∀ (l : List (α × α × ℚ)),
    edgeWeightL (updateEdgeL l u v w) u v = some w
  | [] => by simp [updateEdgeL, edgeWeightL]
  | e :: rest => by
    by_cases he : e.1 = u ∧ e.2.1 = v <;>
      simp [updateEdgeL, he, edgeWeightL, edgeWeightL_updateEdgeL_self u v w rest]

lemma edgeWeightL_updateEdgeL_of_ne {u v u' v' : α} (w : ℚ)
    (hne : ¬(u' = u ∧ v' = v)) : ∀ (l : List (α × α × ℚ)),
    edgeWeightL (updateEdgeL l u v w) u' v' = edgeWeightL l u' v'
  | [] => by
    have hne' : ¬(u = u' ∧ v = v') := fun hc => hne ⟨hc.1.symm, hc.2.symm⟩
    simp [updateEdgeL, edgeWeightL, hne']
  | e :: rest => by
    by_cases he : e.1 = u ∧ e.2.1 = v
    · have hcond : ¬(u = u' ∧ v = v') := fun hc => hne ⟨hc.1.symm, hc.2.symm⟩
      have hcond2 : ¬(e.1 = u' ∧ e.2.1 = v') := fun hc =>
        hne ⟨hc.1.symm.trans he.1, hc.2.symm.trans he.2⟩
      simp [updateEdgeL, he, edgeWeightL, hcond, hcond2]
    · by_cases hw : e.1 = u' ∧ e.2.1 = v' <;>
        simp [updateEdgeL, he, edgeWeightL, hw, hne,
          edgeWeightL_updateEdgeL_of_ne w hne rest]

lemma kmer_parts_inj (k1 k2 : List Char) (h1 : 2 ≤ k1.length) (h2 : 2 ≤ k2.length)
    (hp : k1.dropLast = k2.dropLast) (hs : k1.drop 1 = k2.drop 1) : k1 = k2 := by
  cases k1 with
  | nil => exact absurd h1 (by simp)
  | cons a k1 =>
    cases k1 with
    | nil => exact absurd h1 (by simp)
    | cons b t =>
      cases k2 with
      | nil => exact absurd h2 (by simp)
      | cons a' k2 =>
        cases k2 with
        | nil => exact absurd h2 (by simp)
        | cons b' t' =>
          have hp' : a :: (b :: t).dropLast = a' :: (b' :: t').dropLast := hp
          have hs' : b :: t = b' :: t' := hs
          obtain ⟨rfl, -⟩ := List.cons.inj hp'
          rw [hs']

/-- The edge-adding step of `build_graph`. -/
def buildStep (g : DGraph (List Char)) (e : List Char × Nat) : DGraph (List Char) :=
  add_edge g e.1.dropLast (e.1.drop 1) (e.2 : ℚ)

lemma build_graph_eq (d : List (List Char × Nat)) :
    build_graph d = d.foldl buildStep ⟨[], []⟩ := rfl

lemma edgeWeight_buildfold_of_forall_ne :
    ∀ (d : List (List Char × Nat)) (g : DGraph (List Char)) {u v : List Char},
    (∀ e ∈ d, ¬(u = e.1.dropLast ∧ v = e.1.drop 1)) →
    edgeWeight (d.foldl buildStep g) u v = edgeWeight g u v
  | [], _, _, _, _ => rfl
  | a :: d, g, u, v, h => by
    rw [List.foldl_cons,
      edgeWeight_buildfold_of_forall_ne d _ (fun e he => h e (List.mem_cons_of_mem a he))]
    have ha := h a (List.mem_cons_self a d)
    show edgeWeightL (buildStep g a).edges u v = edgeWeightL g.edges u v
    rw [show (buildStep g a).edges = updateEdgeL g.edges a.1.dropLast (a.1.drop 1) (a.2 : ℚ)
      from edges_add_edge g _ _ _]
    exact edgeWeightL_updateEdgeL_of_ne (a.2 : ℚ) ha g.edges

lemma edgeWeight_buildfold :
    ∀ (d : List (List Char × Nat)) (g : DGraph (List Char)),
    (d.map Prod.fst).Nodup → (∀ e ∈ d, 2 ≤ e.1.length) →
    ∀ e ∈ d, edgeWeight (d.foldl buildStep g) e.1.dropLast (e.1.drop 1) = some (e.2 : ℚ)
  | [], _, _, _, e, he => absurd he (List.not_mem_nil e)
  | a :: d, g, hnd, hlen, e, he => by
    have hnd' : (d.map Prod.fst).Nodup := by
      simp only [List.map_cons, List.nodup_cons] at hnd
      exact hnd.2
    have hnotin : a.1 ∉ d.map Prod.fst := by
      simp only [List.map_cons, List.nodup_cons] at hnd
      exact hnd.1
    rw [List.foldl_cons]
    rcases List.mem_cons.1 he with rfl | hd
    · have hpres : ∀ f ∈ d, ¬(e.1.dropLast = f.1.dropLast ∧ e.1.drop 1 = f.1.drop 1) := by
        intro f hf hc
        have heq : e.1 = f.1 :=
          kmer_parts_inj e.1 f.1 (hlen e (List.mem_cons_self e d))
            (hlen f (List.mem_cons_of_mem e hf)) hc.1 hc.2
        exact hnotin (heq ▸ List.mem_map_of_mem Prod.fst hf)
      rw [edgeWeight_buildfold_of_forall_ne d _ hpres]
      show edgeWeightL (buildStep g e).edges e.1.dropLast (e.1.drop 1) = some (e.2 : ℚ)
      rw [show (buildStep g e).edges = updateEdgeL g.edges e.1.dropLast (e.1.drop 1) (e.2 : ℚ)
        from edges_add_edge g _ _ _]
      exact edgeWeightL_updateEdgeL_self _ _ _ g.edges
    · exact edgeWeight_buildfold d _ hnd' (fun f hf => hlen f (List.mem_cons_of_mem a hf)) e hd

lemma length_updateEdgeL (u v : α) (w : ℚ) : ∀ (l : List (α × α × ℚ)),
    (updateEdgeL l u v w).length ≤ l.length + 1
  | [] => by simp [updateEdgeL]
  | e :: rest => by
    by_cases he : e.1 = u ∧ e.2.1 = v
    · simp [updateEdgeL, he]
    · have := length_updateEdgeL u v w rest
      simp only [updateEdgeL, if_neg he, List.length_cons]
      omega

lemma length_edges_buildfold :
    ∀ (d : List (List Char × Nat)) (g : DGraph (List Char)),
    (d.foldl buildStep g).edges.length ≤ g.edges.length + d.length
  | [], g => by simp
  | a :: d, g => by
    rw [List.foldl_cons]
    have h1 := length_edges_buildfold d (buildStep g a)
    have h2 : (buildStep g a).edges.length ≤ g.edges.length + 1 := by
      rw [show (buildStep g a).edges = updateEdgeL g.edges a.1.dropLast (a.1.drop 1) (a.2 : ℚ)
        from edges_add_edge g _ _ _]
      exact length_updateEdgeL _ _ _ g.edges
    simp only [List.length_cons]
    omega

lemma mem_nodes_buildfold :
    ∀ (d : List (List Char × Nat)) (g : DGraph (List Char)) (x : List Char),
    x ∈ (d.foldl buildStep g).nodes ↔
      x ∈ g.nodes ∨ ∃ e ∈ d, x = e.1.dropLast ∨ x = e.1.drop 1
  | [], g, x => by simp
  | a :: d, g, x => by
    rw [List.foldl_cons, mem_nodes_buildfold d _ x]
    have hstep : x ∈ (buildStep g a).nodes ↔
        x ∈ g.nodes ∨ x = a.1.dropLast ∨ x = a.1.drop 1 :=
      mem_nodes_add_edge
    rw [hstep]
    simp only [List.mem_cons]
    constructor
    · rintro ((hg | h1 | h2) | ⟨e, he, hor⟩)
      · exact Or.inl hg
      · exact Or.inr ⟨a, Or.inl rfl, Or.inl h1⟩
      · exact Or.inr ⟨a, Or.inl rfl, Or.inr h2⟩
      · exact Or.inr ⟨e, Or.inr he, hor⟩
    · rintro (hg | ⟨e, rfl | he, hor⟩)
      · exact Or.inl (Or.inl hg)
      · exact Or.inl (Or.inr hor)
      · exact Or.inr ⟨e, he, hor⟩

lemma hasEdge_fold_preserve :
    ∀ (d : List (List Char × Nat)) (g : DGraph (List Char)) {u v : List Char},
    hasEdge g u v = true → hasEdge (d.foldl buildStep g) u v = true
  | [], _, _, _, h => h
  | a :: d, g, u, v, h => by
    rw [List.foldl_cons]
    exact hasEdge_fold_preserve d _ (hasEdge_add_edge_of g _ _ _ h)

lemma hasEdge_buildfold :
    ∀ (d : List (List Char × Nat)) (g : DGraph (List Char)) (e : List Char × Nat),
    e ∈ d → hasEdge (d.foldl buildStep g) e.1.dropLast (e.1.drop 1) = true
  | [], _, e, h => absurd h (List.not_mem_nil e)
  | a :: d, g, e, h => by
    rw [List.foldl_cons]
    rcases List.mem_cons.1 h with rfl | hd
    · exact hasEdge_fold_preserve d _ (hasEdge_add_edge_self g _ _ _)
    · exact hasEdge_buildfold d _ e hd

/-! ## C6 -/

/-- C6: for `k ≥ 1`, the cutter emits exactly `k + (L mod k) + 1` slices
`read[i : i + k]` for `i` from `0` to `k + (L mod k)` inclusive (slices past
the end are truncated by Python slicing, not dropped), and the counter's
entry for any substring equals its number of occurrences among all
substrings emitted over all reads, whatever their lengths. -/
theorem cut_kmer_spec (reads : List (List Char)) (kmer_size : Nat) (read : List Char)
    (hk : 1 ≤ kmer_size) :
    (cut_kmer read kmer_size).length = kmer_size + read.length % kmer_size + 1 ∧
    (∀ i, i ≤ kmer_size + read.length % kmer_size →
      (cut_kmer read kmer_size)[i]? = some ((read.drop i).take kmer_size)) ∧
    (∀ w, lookupCount (build_kmer_dict reads kmer_size) w =
      ((reads.map (fun r => cut_kmer r kmer_size)).flatten).count w) := by
  refine ⟨by simp [cut_kmer], fun i hi => ?_,
    fun w => lookupCount_build_kmer_dict reads kmer_size w⟩
  simp [cut_kmer, List.getElem?_map, List.getElem?_range, Nat.lt_succ_of_le hi]

/-- C6 witness: the theorem applied to the single read `ATC` with `k = 2`. -/
theorem cut_kmer_spec_witness :
    (1 ≤ 2) ∧ (cut_kmer ['A', 'T', 'C'] 2).length = 2 + (['A', 'T', 'C'] : List Char).length % 2 + 1 :=
  ⟨by decide, (cut_kmer_spec [['A', 'T', 'C']] 2 ['A', 'T', 'C'] (by decide)).1⟩

/-! ## C7 -/

/-- C7 counterexample: the distinct one-character entries `("A", 2)` and
`("C", 3)` both split into prefix `""` and suffix `""`, so the second entry
overwrites the weight of the self-loop created by the first: the edge made
from the entry with count 2 ends up with weight 3, and the graph has a
single edge for two distinct k-mers. -/
theorem build_graph_weight_overwritten :
    edgeWeight (build_graph [(['A'], 2), (['C'], 3)]) [] [] = some 3 ∧
      ¬edgeWeight (build_graph [(['A'], 2), (['C'], 3)]) [] [] = some 2 ∧
      (build_graph [(['A'], 2), (['C'], 3)]).edges.length = 1 := by
  with_unfolding_all decide

/-- C7 (amended): when the dictionary keys are distinct and every key has
length at least 2 (so the prefix/suffix split determines the k-mer), every
entry's edge `kmer[0..k-1] → kmer[1..k]` carries exactly that entry's
occurrence count, there are at most as many edges as entries, and the node
set is exactly the prefixes and suffixes encountered (the node-set clause
needs no hypotheses). -/
theorem build_graph_spec (d : List (List Char × Nat))
    (hnodup : (d.map Prod.fst).Nodup) (hlen : ∀ e ∈ d, 2 ≤ e.1.length) :
    (∀ e ∈ d, edgeWeight (build_graph d) e.1.dropLast (e.1.drop 1) = some (e.2 : ℚ)) ∧
    (build_graph d).edges.length ≤ d.length ∧
    (∀ x, x ∈ (build_graph d).nodes ↔ ∃ e ∈ d, x = e.1.dropLast ∨ x = e.1.drop 1) := by
  refine ⟨fun e he => ?_, ?_, fun x => ?_⟩
  · rw [build_graph_eq]
    exact edgeWeight_buildfold d ⟨[], []⟩ hnodup hlen e he
  · rw [build_graph_eq]
    simpa using length_edges_buildfold d ⟨[], []⟩
  · rw [build_graph_eq]
    simpa using mem_nodes_buildfold d ⟨[], []⟩ x

/-- C7 witness: the amended theorem on the two-entry dictionary
`AB ↦ 2, BC ↦ 3`. -/
theorem build_graph_spec_witness :
    ((([(['A', 'B'], 2), (['B', 'C'], 3)] : List (List Char × Nat)).map Prod.fst).Nodup) ∧
      edgeWeight (build_graph [(['A', 'B'], 2), (['B', 'C'], 3)]) ['A'] ['B'] = some 2 :=
  ⟨by decide,
   (build_graph_spec [(['A', 'B'], 2), (['B', 'C'], 3)] (by decide) (by decide)).1
     (['A', 'B'], 2) (by decide)⟩

/-! ## C10 -/

/-- C10: a read shorter than `2k` makes the cutter emit the empty substring
(the slice at `i = k + L mod k ≥ L`), the counter records the empty string
like any other substring, and the graph builder turns that entry into a
self-loop on the empty-string node. -/
theorem short_read_selfloop (reads : List (List Char)) (kmer_size : Nat)
    (read : List Char) (hk : 1 ≤ kmer_size) (hmem : read ∈ reads)
    (hshort : read.length < 2 * kmer_size) :
    [] ∈ cut_kmer read kmer_size ∧
    1 ≤ lookupCount (build_kmer_dict reads kmer_size) [] ∧
    hasEdge (build_graph (build_kmer_dict reads kmer_size)) [] [] = true := by
  have h1 : [] ∈ cut_kmer read kmer_size := nil_mem_cut_kmer hshort
  have h2 : 1 ≤ lookupCount (build_kmer_dict reads kmer_size) [] := by
    rw [lookupCount_build_kmer_dict]
    have hmem2 : ([] : List Char) ∈ (reads.map (fun r => cut_kmer r kmer_size)).flatten :=
      List.mem_flatten.2 ⟨cut_kmer read kmer_size, List.mem_map_of_mem _ hmem, h1⟩
    exact List.count_pos_iff.2 hmem2
  refine ⟨h1, h2, ?_⟩
  have hkey := mem_of_lookupCount_pos (build_kmer_dict reads kmer_size) [] h2
  rw [build_graph_eq]
  exact hasEdge_buildfold (build_kmer_dict reads kmer_size) ⟨[], []⟩ _ hkey

/-- C10 witness: the single read `A` with `k = 1`. -/
theorem short_read_selfloop_witness :
    (1 ≤ 1 ∧ (['A'] : List Char) ∈ [['A']] ∧ (['A'] : List Char).length < 2 * 1) ∧
      ([] ∈ cut_kmer ['A'] 1 ∧ 1 ≤ lookupCount (build_kmer_dict [['A']] 1) [] ∧
        hasEdge (build_graph (build_kmer_dict [['A']] 1)) [] [] = true) :=
  ⟨by decide, short_read_selfloop [['A']] 1 ['A'] (by decide) (by decide) (by decide)⟩

/-! ## C3 -/

/-- The entry-tip situation of C3: two tip sources `A` and `B` converge on
`C`, which continues to `D`; `A` and `B` are the zero-predecessor starting
nodes. -/
def gTips : DGraph String :=
  ⟨["A", "C", "B", "D"], [("A", "C", 10), ("B", "C", 1), ("C", "D", 1)]⟩

/-- C3: on `gTips`, entry-tip resolution does not remove the losing tip with
`delete_entry_node=true`; instead `select_best_path` runs with both deletion
flags at their `False` defaults (removing nothing here, since the losing
path `[B, C]` has no interior), and the subsequent `paths.pop(best_path)`
passes the returned graph object to `list.pop`, raising `TypeError`; the
losing tip source `B` is still in the graph when the exception escapes. -/
theorem solve_entry_tips_type_error :
    solve_entry_tips gTips ["A", "B"] 0 = PyResult.raised "TypeError" gTips ∧
      "B" ∈ gTips.nodes := by
  with_unfolding_all decide

/-! ## C9 -/

/-- C9: invoking exit-tip resolution on a concrete graph silently returns
Python `None` (no graph) and raises nothing: no "not implemented" condition
is surfaced to the caller. -/
theorem solve_out_tips_silent :
    solve_out_tips (⟨["a"], []⟩ : DGraph String) ["a"] = PyResult.ok none := rfl

end Debruijn
